import Mathlib

/-
Verification development for the AliceVision robust geometric-model
estimation core: the uniform sampling primitive
(robustEstimation/randSampling), the fundamental-matrix minimal solvers
(multiview/fundamentalKernelSolver.cpp) and the rigid similarity
transform utilities and kernel adaptor (geometry/rigidTransformation3D.hpp).
Floating-point doubles are modelled as real numbers; machine epsilon is
the double-precision constant 2^-52.
-/

namespace AVSpec

/-! ### Uniform sampling without replacement -/

/-- Modelled from the spec: the implementation of `UniformSample`
(robustEstimation/randSampling.hpp) is not among the provided sources, only
its tests. The spec describes a partial Fisher–Yates-style selection:
repeatedly draw a candidate position in the shrinking remaining pool from
the random-number source and exclude already-chosen values. Here the pool
is an explicit list and the random source a stream of naturals; each step
picks the value at position `rand k % pool.length` of the remaining pool
and removes it. -/
def drawDistinct (rand : ℕ → ℕ) : ℕ → List ℕ → List ℕ
  | 0, _ => []
  | k + 1, pool =>
    if pool = [] then []
    else
      let x := pool.getD (rand k % pool.length) 0
      x :: drawDistinct rand k (pool.erase x)

/-- Modelled from the spec: `UniformSample(lo, hi, k, samples)` draws `k`
distinct integers from the closed-open range `[lo, hi)`; the `[0, hi)`
overload is the instance `lo = 0`. -/
def UniformSample (rand : ℕ → ℕ) (lo hi k : ℕ) : List ℕ :=
  drawDistinct rand k (List.range' lo (hi - lo))

theorem drawDistinct_spec (rand : ℕ → ℕ) :
    ∀ (k : ℕ) (pool : List ℕ), pool.Nodup → k ≤ pool.length →
      (drawDistinct rand k pool).length = k ∧
      (∀ e ∈ drawDistinct rand k pool, e ∈ pool) ∧
      (drawDistinct rand k pool).Nodup := by
  intro k
  induction k with
  | zero => intro pool _ _; simp [drawDistinct]
  | succ k ih =>
    intro pool hnd hk
    have hne : pool ≠ [] := by
      intro h; rw [h] at hk; simp at hk
    have hlt : rand k % pool.length < pool.length :=
      Nat.mod_lt _ (List.length_pos.mpr hne)
    set x := pool.getD (rand k % pool.length) 0 with hx
    have hmem : x ∈ pool := by
      rw [hx, List.getD_eq_getElem pool 0 hlt]
      exact List.getElem_mem hlt
    have hlen : (pool.erase x).length = pool.length - 1 :=
      List.length_erase_of_mem hmem
    have hk' : k ≤ (pool.erase x).length := by omega
    have hnd' : (pool.erase x).Nodup := hnd.erase x
    obtain ⟨ihlen, ihmem, ihnd⟩ := ih (pool.erase x) hnd' hk'
    have hstep : drawDistinct rand (k + 1) pool =
        x :: drawDistinct rand k (pool.erase x) := by
      rw [drawDistinct, if_neg hne]
    refine ⟨?_, ?_, ?_⟩
    · rw [hstep]; simp [ihlen]
    · intro e he
      rw [hstep] at he
      rcases List.mem_cons.mp he with h | h
      · exact h ▸ hmem
      · exact List.erase_subset x pool (ihmem e h)
    · rw [hstep, List.nodup_cons]
      refine ⟨fun hc => ?_, ihnd⟩
      have := ihmem x hc
      exact (hnd.mem_erase_iff.mp this).1 rfl

/-- Claim C1: for every lower bound `lo`, upper bound `hi` and requested
count `k` with `k ≤ hi - lo` (the form `lo = 0` included), and for every
state of the random-number source, uniform sampling returns exactly `k`
integers, each in `[lo, hi)`, with no two equal. -/
theorem UniformSample_spec (rand : ℕ → ℕ) (lo hi k : ℕ) (h : k ≤ hi - lo) :
    (UniformSample rand lo hi k).length = k ∧
    (∀ e ∈ UniformSample rand lo hi k, lo ≤ e ∧ e < hi) ∧
    (UniformSample rand lo hi k).Nodup := by
  have hnd : (List.range' lo (hi - lo)).Nodup := List.nodup_range' lo (hi - lo)
  have hlen : (List.range' lo (hi - lo)).length = hi - lo :=
    List.length_range' lo 1 (hi - lo)
  obtain ⟨h1, h2, h3⟩ :=
    drawDistinct_spec rand k (List.range' lo (hi - lo)) hnd (by omega)
  refine ⟨h1, ?_, h3⟩
  intro e he
  have := h2 e he
  rw [List.mem_range'] at this
  omega

/-- Witness for C1: a concrete run with `lo = 1`, `hi = 4`, `k = 2`. -/
theorem UniformSample_spec_witness :
    2 ≤ 4 - 1 ∧
    ((UniformSample (fun _ => 5) 1 4 2).length = 2 ∧
     (∀ e ∈ UniformSample (fun _ => 5) 1 4 2, 1 ≤ e ∧ e < 4) ∧
     (UniformSample (fun _ => 5) 1 4 2).Nodup) :=
  ⟨by decide, UniformSample_spec (fun _ => 5) 1 4 2 (by decide)⟩

/-! ### Rigid similarity transform utilities (geometry/rigidTransformation3D.hpp) -/

abbrev Vec2 := Fin 2 → ℝ

abbrev Vec3 := Fin 3 → ℝ

abbrev Vec9 := Fin 9 → ℝ

abbrev Mat3 := Matrix (Fin 3) (Fin 3) ℝ

abbrev Mat4 := Matrix (Fin 4) (Fin 4) ℝ

/-- The top-left 3x3 block of a 4x4 matrix (`topLeftCorner<3, 3>()`). -/
def topLeft3 (M : Mat4) : Mat3 :=
  fun i j => M i.castSucc j.castSucc

/-- The top-right 3x1 column of a 4x4 matrix (`topRightCorner<3, 1>()`). -/
def topRightCol (M : Mat4) : Vec3 :=
  fun i => M i.castSucc 3

/-- The double-precision machine epsilon `std::numeric_limits<double>::epsilon()`,
modelled exactly as the real number 2^-52. -/
noncomputable def epsDouble : ℝ := ((2 : ℝ) ^ (52 : ℕ))⁻¹

/-- The cube root `pow(x, 1.0 / 3.0)` used by `decomposeRTS`, modelled as the
real power `x ^ (1/3)` (the source only applies it to nonnegative inputs). -/
noncomputable def cbrt (x : ℝ) : ℝ := x ^ ((1 : ℝ) / 3)

/-- `composeRTS(S, t, R, RTS)`: writes `S*R` into the top-left 3x3 block of the
out-parameter and `t` into its top-right column, leaving every other entry of
the prior matrix as it was (the source never writes the bottom row). -/
def composeRTS (S : ℝ) (t : Vec3) (R : Mat3) (RTS : Mat4) : Mat4 :=
  fun i j =>
    if hij : i.val < 3 ∧ j.val < 3 then (S • R) ⟨i.val, hij.1⟩ ⟨j.val, hij.2⟩
    else if hit : i.val < 3 ∧ j.val = 3 then t ⟨i.val, hit.1⟩
    else RTS i j

/-- The three out-parameters `S`, `t`, `R` of `decomposeRTS`, modelled as
explicit state so that partial writes on the failure paths are observable. -/
structure DecState where
  S : ℝ
  t : Vec3
  R : Mat3

/-- `decomposeRTS(RTS, S, t, R)`: writes the top-left block into `R`, fails if
its determinant is negative; writes the cube root of the determinant into `S`,
fails if it is below machine epsilon; otherwise divides `R` by `S`, writes the
top-right column into `t` and succeeds. -/
noncomputable def decomposeRTS (RTS : Mat4) (st : DecState) : Bool × DecState :=
  let R := topLeft3 RTS
  if R.det < 0 then (false, ⟨st.S, st.t, R⟩)
  else
    let S := cbrt R.det
    if S < epsDouble then (false, ⟨S, st.t, R⟩)
    else (true, ⟨S, topRightCol RTS, S⁻¹ • R⟩)

theorem topLeft3_composeRTS (S : ℝ) (t : Vec3) (R : Mat3) (M : Mat4) :
    topLeft3 (composeRTS S t R M) = S • R := by
  ext i j
  show (composeRTS S t R M) i.castSucc j.castSucc = (S • R) i j
  have hij : (Fin.castSucc i).val < 3 ∧ (Fin.castSucc j).val < 3 :=
    ⟨i.isLt, j.isLt⟩
  rw [composeRTS, dif_pos hij]
  rfl

theorem topRightCol_composeRTS (S : ℝ) (t : Vec3) (R : Mat3) (M : Mat4) :
    topRightCol (composeRTS S t R M) = t := by
  ext i
  show (composeRTS S t R M) i.castSucc 3 = t i
  have h3 : ((3 : Fin 4)).val = 3 := rfl
  rw [composeRTS, dif_neg (by omega), dif_pos ⟨i.isLt, h3⟩]
  exact congrArg t (Fin.eta _ _)

theorem epsDouble_pos : 0 < epsDouble := by
  rw [epsDouble]
  positivity

theorem cbrt_cube {S : ℝ} (hS : 0 ≤ S) : cbrt (S ^ 3) = S := by
  rw [cbrt, ← Real.rpow_natCast S 3, ← Real.rpow_mul hS]
  norm_num

/-- Claim C2 (amended): for every scale `S` at least machine epsilon, proper
rotation `R` and translation `t`, decomposing the composed matrix succeeds and
recovers `(S, t, R)` exactly in the real-number model. -/
theorem decomposeRTS_composeRTS (S : ℝ) (t : Vec3) (R : Mat3) (M0 : Mat4)
    (st : DecState) (hS : epsDouble ≤ S) (hR : R.transpose * R = 1)
    (hdet : R.det = 1) :
    decomposeRTS (composeRTS S t R M0) st = (true, ⟨S, t, R⟩) := by
  have hS0 : 0 < S := lt_of_lt_of_le epsDouble_pos hS
  have hdet3 : (S • R).det = S ^ 3 := by
    rw [Matrix.det_smul, hdet, mul_one, Fintype.card_fin]
  have hcb : cbrt ((S • R).det) = S := by rw [hdet3]; exact cbrt_cube hS0.le
  simp only [decomposeRTS, topLeft3_composeRTS, topRightCol_composeRTS, hcb]
  rw [if_neg (not_lt.mpr (by rw [hdet3]; positivity)), if_neg (not_lt.mpr hS)]
  have hRR : S⁻¹ • (S • R) = R := by
    rw [smul_smul, inv_mul_cancel₀ hS0.ne', one_smul]
  rw [hRR]

/-- Witness for C2 (amended): the round trip at `S = 1`, `R = I`, `t = 0`. -/
theorem decomposeRTS_composeRTS_witness :
    epsDouble ≤ 1 ∧ (1 : Mat3).transpose * 1 = 1 ∧ (1 : Mat3).det = 1 ∧
    decomposeRTS (composeRTS 1 0 1 0) ⟨0, 0, 0⟩ = (true, ⟨1, 0, 1⟩) := by
  have h1 : epsDouble ≤ 1 := by
    rw [epsDouble]
    rw [inv_le_one_iff₀]
    right
    norm_num
  have h2 : (1 : Mat3).transpose * 1 = 1 := by rw [Matrix.transpose_one, mul_one]
  exact ⟨h1, h2, Matrix.det_one,
    decomposeRTS_composeRTS 1 0 1 0 ⟨0, 0, 0⟩ h1 h2 Matrix.det_one⟩

/-- Counterexample to claim C2 as stated: at the positive scale `S = 2^-53`
(below machine epsilon), identity rotation and zero translation, the
decomposition of the composed matrix fails instead of succeeding. -/
theorem decomposeRTS_composeRTS_small_scale_fails :
    0 < ((2 : ℝ) ^ (53 : ℕ))⁻¹ ∧ (1 : Mat3).transpose * 1 = 1 ∧
    (1 : Mat3).det = 1 ∧
    (decomposeRTS (composeRTS ((2 : ℝ) ^ (53 : ℕ))⁻¹ 0 1 0) ⟨0, 0, 0⟩).1 =
      false := by
  refine ⟨by positivity, by rw [Matrix.transpose_one, mul_one], Matrix.det_one,
    ?_⟩
  set S : ℝ := ((2 : ℝ) ^ (53 : ℕ))⁻¹ with hSdef
  have hS0 : 0 < S := by rw [hSdef]; positivity
  have hdet3 : (S • (1 : Mat3)).det = S ^ 3 := by
    rw [Matrix.det_smul, Matrix.det_one, mul_one, Fintype.card_fin]
  have hcb : cbrt ((S • (1 : Mat3)).det) = S := by
    rw [hdet3]; exact cbrt_cube hS0.le
  have hlt : S < epsDouble := by
    rw [hSdef, epsDouble]
    rw [inv_lt_inv₀ (by positivity) (by positivity)]
    norm_num
  simp only [decomposeRTS, topLeft3_composeRTS, hcb]
  rw [if_neg (not_lt.mpr (by rw [hdet3]; positivity)), if_pos hlt]

/-- Claim C5: `decomposeRTS` succeeds exactly when the top-left block has
nonnegative determinant and the implied scale (its cube root) is at least
machine epsilon; it returns false whenever the determinant is negative or the
scale is sub-epsilon. -/
theorem decomposeRTS_success_iff (M : Mat4) (st : DecState) :
    (decomposeRTS M st).1 = true ↔
      0 ≤ (topLeft3 M).det ∧ epsDouble ≤ cbrt (topLeft3 M).det := by
  simp only [decomposeRTS]
  split_ifs with h1 h2
  · constructor
    · intro h; exact absurd h (by simp)
    · rintro ⟨h0, -⟩; exact absurd h1 (not_lt.mpr h0)
  · constructor
    · intro h; exact absurd h (by simp)
    · rintro ⟨-, hcb⟩; exact absurd h2 (not_lt.mpr hcb)
  · exact iff_of_true rfl ⟨not_lt.mp h1, not_lt.mp h2⟩

/-- Claim C10: whenever `decomposeRTS` returns false, the translation
out-parameter is untouched, the rotation out-parameter has been overwritten
with the raw top-left block, and the scale out-parameter has been overwritten
(with the cube root of the determinant) exactly when the failure is the
sub-epsilon-scale check rather than the negative-determinant check. -/
theorem decomposeRTS_failure_frame (M : Mat4) (st : DecState)
    (h : (decomposeRTS M st).1 = false) :
    (decomposeRTS M st).2.t = st.t ∧
    (decomposeRTS M st).2.R = topLeft3 M ∧
    ((topLeft3 M).det < 0 → (decomposeRTS M st).2.S = st.S) ∧
    (0 ≤ (topLeft3 M).det →
      (decomposeRTS M st).2.S = cbrt (topLeft3 M).det) := by
  by_cases h1 : (topLeft3 M).det < 0
  · have hd : decomposeRTS M st = (false, ⟨st.S, st.t, topLeft3 M⟩) := by
      simp only [decomposeRTS]
      rw [if_pos h1]
    rw [hd]
    exact ⟨rfl, rfl, fun _ => rfl, fun h0 => absurd h1 (not_lt.mpr h0)⟩
  · by_cases h2 : cbrt (topLeft3 M).det < epsDouble
    · have hd : decomposeRTS M st =
          (false, ⟨cbrt (topLeft3 M).det, st.t, topLeft3 M⟩) := by
        simp only [decomposeRTS]
        rw [if_neg h1, if_pos h2]
      rw [hd]
      exact ⟨rfl, rfl, fun hneg => absurd hneg h1, fun _ => rfl⟩
    · have hd : (decomposeRTS M st).1 = true := by
        simp only [decomposeRTS]
        rw [if_neg h1, if_neg h2]
      rw [hd] at h
      exact absurd h (by simp)

theorem topLeft3_zero : topLeft3 0 = 0 := by
  ext i j
  simp [topLeft3]

theorem topRightCol_zero : topRightCol 0 = 0 := by
  ext i
  simp [topRightCol]

/-- Witness for C10: the zero matrix has determinant 0, so the cube root of
the determinant is 0, below machine epsilon, and decomposition fails. -/
theorem decomposeRTS_failure_frame_witness :
    (decomposeRTS 0 ⟨5, 1, 1⟩).1 = false ∧
    ((decomposeRTS 0 ⟨5, 1, 1⟩).2.t = (1 : Vec3) ∧
     (decomposeRTS 0 ⟨5, 1, 1⟩).2.R = topLeft3 0 ∧
     ((topLeft3 (0 : Mat4)).det < 0 → (decomposeRTS 0 ⟨5, 1, 1⟩).2.S = 5) ∧
     (0 ≤ (topLeft3 (0 : Mat4)).det →
       (decomposeRTS 0 ⟨5, 1, 1⟩).2.S = cbrt (topLeft3 (0 : Mat4)).det)) := by
  have hdet : (topLeft3 (0 : Mat4)).det = 0 := by
    rw [topLeft3_zero, Matrix.det_zero ⟨(0 : Fin 3)⟩]
  have hcb : cbrt ((topLeft3 (0 : Mat4)).det) = 0 := by
    rw [hdet, cbrt, Real.zero_rpow (by norm_num)]
  have hfail : (decomposeRTS 0 ⟨5, 1, 1⟩).1 = false := by
    simp only [decomposeRTS, hcb]
    rw [if_neg (not_lt.mpr (le_of_eq hdet.symm)), if_pos epsDouble_pos]
  exact ⟨hfail, decomposeRTS_failure_frame 0 ⟨5, 1, 1⟩ hfail⟩

/-- Claim C7 evaluated at a failing input: `composeRTS` never writes the
bottom row of the out-parameter, so with an all-ones prior matrix the bottom
row after the call is `(1, 1, 1, 1)`, not `(0, 0, 0, 1)` as the function's own
documentation `[S*R | t; 0 0 0 1]` states. -/
theorem composeRTS_leaves_bottom_row :
    (∀ j : Fin 4, composeRTS 1 0 1 (fun _ _ => 1) 3 j = 1) ∧
    composeRTS 1 0 1 (fun _ _ => 1) 3 0 ≠ 0 := by
  have hrow : ∀ j : Fin 4, composeRTS 1 0 1 (fun _ _ => 1) 3 j = 1 := by
    intro j
    rw [composeRTS, dif_neg (fun hc => absurd hc.1 (by decide)),
      dif_neg (fun hc => absurd hc.1 (by decide))]
  exact ⟨hrow, by rw [hrow 0]; norm_num⟩

/-! ### Error metrics and the kernel adaptor -/

/-- Sum of squared components, Eigen's `squaredNorm()`. -/
def vecSquaredNorm (v : Vec3) : ℝ := ∑ i, v i ^ 2

/-- Euclidean norm, Eigen's `norm()`. -/
noncomputable def vecNorm (v : Vec3) : ℝ := Real.sqrt (vecSquaredNorm v)

/-- The residual vector `pt2 - (RS * pt1 + t)` formed by both error metrics,
where `RS` is the top-left 3x3 block and `t` the top-right column of the
model. -/
def residual (RTS : Mat4) (pt1 pt2 : Vec3) : Vec3 :=
  pt2 - (Matrix.mulVec (topLeft3 RTS) pt1 + topRightCol RTS)

/-- `RTSSolver::Error`: the plain (unsquared) residual norm. -/
noncomputable def RTSSolver.Error (RTS : Mat4) (pt1 pt2 : Vec3) : ℝ :=
  vecNorm (residual RTS pt1 pt2)

/-- `RTSSquaredResidualError::Error`: the squared residual norm. -/
def RTSSquaredResidualError.Error (RTS : Mat4) (pt1 pt2 : Vec3) : ℝ :=
  vecSquaredNorm (residual RTS pt1 pt2)

/-- Modelled from the spec: the numeric helper `Square` (aliceVision/numeric,
not among the provided sources) squares its argument. -/
def Square (x : ℝ) : ℝ := x * x

/-- The immutable point-set view held by
`ACKernelAdaptor_PointsRegistrationSRT`: a correspondence count and the two
3xN column collections. -/
structure PointsKernel where
  n : ℕ
  x1 : ℕ → Vec3
  x2 : ℕ → Vec3

namespace ACKernelAdaptor_PointsRegistrationSRT

/-- `ACKernelAdaptor_PointsRegistrationSRT::Error(sample, model)`:
`Square(ErrorT::Error(model, x1.col(sample), x2.col(sample)))`, generic over
the error metric `err` (the `ErrorArg` template parameter). -/
def Error (err : Mat4 → Vec3 → Vec3 → ℝ) (ker : PointsKernel) (sample : ℕ)
    (model : Mat4) : ℝ :=
  Square (err model (ker.x1 sample) (ker.x2 sample))

/-- `ACKernelAdaptor_PointsRegistrationSRT::Errors(model, vec_errors)`: one
squared metric value per column index in order. -/
def Errors (err : Mat4 → Vec3 → Vec3 → ℝ) (ker : PointsKernel)
    (model : Mat4) : List ℝ :=
  (List.range ker.n).map fun sample =>
    Square (err model (ker.x1 sample) (ker.x2 sample))

/-- `ACKernelAdaptor_PointsRegistrationSRT::NumSamples()`. -/
def NumSamples (ker : PointsKernel) : ℕ := ker.n

end ACKernelAdaptor_PointsRegistrationSRT

theorem vecSquaredNorm_nonneg (v : Vec3) : 0 ≤ vecSquaredNorm v :=
  Finset.sum_nonneg fun i _ => sq_nonneg (v i)

/-- Claim C6 (amended): the adaptor's per-correspondence `Error` squares the
metric's value, so it is the squared residual exactly for the plain-residual
metric `RTSSolver::Error`; for `RTSSquaredResidualError::Error` it is the
square of the squared residual (the fourth power of the residual norm). -/
theorem adaptor_Error_squares_metric (ker : PointsKernel) (i : ℕ)
    (M : Mat4) :
    ACKernelAdaptor_PointsRegistrationSRT.Error RTSSolver.Error ker i M =
      vecSquaredNorm (residual M (ker.x1 i) (ker.x2 i)) ∧
    ACKernelAdaptor_PointsRegistrationSRT.Error RTSSquaredResidualError.Error
        ker i M =
      vecSquaredNorm (residual M (ker.x1 i) (ker.x2 i)) ^ 2 := by
  constructor
  · show Square (vecNorm (residual M (ker.x1 i) (ker.x2 i))) = _
    rw [Square, vecNorm, Real.mul_self_sqrt (vecSquaredNorm_nonneg _)]
  · show Square (vecSquaredNorm (residual M (ker.x1 i) (ker.x2 i))) = _
    rw [Square, sq]

theorem residual_zero_model (pt1 pt2 : Vec3) : residual 0 pt1 pt2 = pt2 := by
  rw [residual, topLeft3_zero, topRightCol_zero, Matrix.zero_mulVec, add_zero,
    sub_zero]

/-- Counterexample to claim C6 as stated: for the metric
`RTSSquaredResidualError::Error`, at the zero model and the single
correspondence `(0, (1,1,0))`, the adaptor's `Error` returns `4` while the
squared residual is `2`. -/
theorem adaptor_Error_not_squared_residual :
    ACKernelAdaptor_PointsRegistrationSRT.Error RTSSquaredResidualError.Error
        ⟨1, fun _ => 0, fun _ => ![1, 1, 0]⟩ 0 0 = 4 ∧
    vecSquaredNorm (residual 0 ((fun _ : ℕ => (0 : Vec3)) 0)
        ((fun _ : ℕ => ![(1 : ℝ), 1, 0]) 0)) = 2 ∧
    (4 : ℝ) ≠ 2 := by
  have hsq : vecSquaredNorm ![(1 : ℝ), 1, 0] = 2 := by
    rw [vecSquaredNorm, Fin.sum_univ_three]
    norm_num
  have hres : vecSquaredNorm (residual 0 (0 : Vec3) ![(1 : ℝ), 1, 0]) = 2 := by
    rw [residual_zero_model, hsq]
  refine ⟨?_, hres, by norm_num⟩
  show Square (RTSSquaredResidualError.Error 0 0 ![(1 : ℝ), 1, 0]) = 4
  rw [RTSSquaredResidualError.Error, hres, Square]
  norm_num

/-- Claim C9: the adaptor's bulk `Errors` returns a vector of length
`NumSamples()` whose entry at every index equals the per-correspondence
`Error` at that index, for any error metric. -/
theorem adaptor_Errors_spec (err : Mat4 → Vec3 → Vec3 → ℝ)
    (ker : PointsKernel) (M : Mat4) :
    (ACKernelAdaptor_PointsRegistrationSRT.Errors err ker M).length =
      ACKernelAdaptor_PointsRegistrationSRT.NumSamples ker ∧
    ∀ i : Fin (ACKernelAdaptor_PointsRegistrationSRT.NumSamples ker),
      (ACKernelAdaptor_PointsRegistrationSRT.Errors err ker M).getD i.val 0 =
        ACKernelAdaptor_PointsRegistrationSRT.Error err ker i.val M := by
  have hlen : (ACKernelAdaptor_PointsRegistrationSRT.Errors err ker M).length =
      ker.n := by
    rw [ACKernelAdaptor_PointsRegistrationSRT.Errors, List.length_map,
      List.length_range]
  refine ⟨hlen, fun i => ?_⟩
  have hi : i.val < (ACKernelAdaptor_PointsRegistrationSRT.Errors err
      ker M).length := by
    rw [hlen]; exact i.isLt
  rw [List.getD_eq_getElem _ _ hi]
  simp only [ACKernelAdaptor_PointsRegistrationSRT.Errors, List.getElem_map,
    List.getElem_range]
  rfl

/-! ### FindRTS input guards -/

/-- The observable outcome of the guard section of `FindRTS`: an early
boolean `false` return, a failed `assert`, or falling through to the Umeyama
estimation. -/
inductive FindRTSOutcome
  | returnsFalse
  | assertViolation
  | proceeds
deriving DecidableEq

/-- The guard structure of `FindRTS(x1, x2, S, t, R)` on the shapes of its
inputs: first `if (x1.cols() < 3 || x2.cols() < 3) return false;`, then the
four `assert`s on rows and columns, then the Umeyama call. -/
def FindRTS_guard (rows1 cols1 rows2 cols2 : ℕ) : FindRTSOutcome :=
  if cols1 < 3 ∨ cols2 < 3 then .returnsFalse
  else if ¬(rows1 = 3) ∨ ¬(3 ≤ cols1) ∨ ¬(rows1 = rows2) ∨ ¬(cols1 = cols2)
    then .assertViolation
  else .proceeds

/-- Counterexample to claim C8 as stated: `FindRTS` on 3x2 point sets (two
correspondences, fewer than the required 3) returns `false`, a recoverable
boolean failure — it does not reach any assertion. -/
theorem FindRTS_guard_two_points_returns_false :
    FindRTS_guard 3 2 3 2 = FindRTSOutcome.returnsFalse ∧
    FindRTS_guard 3 2 3 2 ≠ FindRTSOutcome.assertViolation := by
  decide

/-- Claim C8 (amended): calling `FindRTS` with fewer than 3 correspondences
in either point set takes the early `return false` path — it is signaled as a
recoverable boolean failure, before any assertion is evaluated. -/
theorem FindRTS_guard_few_points (rows1 cols1 rows2 cols2 : ℕ)
    (h : cols1 < 3 ∨ cols2 < 3) :
    FindRTS_guard rows1 cols1 rows2 cols2 = FindRTSOutcome.returnsFalse := by
  rw [FindRTS_guard, if_pos h]

/-- Witness for C8 (amended) at the 3x2 / 3x2 shape. -/
theorem FindRTS_guard_few_points_witness :
    ((2 : ℕ) < 3 ∨ (2 : ℕ) < 3) ∧
    FindRTS_guard 3 2 3 2 = FindRTSOutcome.returnsFalse :=
  ⟨by decide, FindRTS_guard_few_points 3 2 3 2 (by decide)⟩

/-! ### Fundamental matrix minimal solvers
(multiview/fundamentalKernelSolver.cpp) -/

/-- `Map<RMat3>(f.data())`: reshape a 9-vector into a 3x3 matrix in row-major
order. -/
def reshapeRow3 (f : Vec9) : Mat3 :=
  fun i j => f ⟨3 * i.val + j.val, by omega⟩

/-- The coefficients `P[0] .. P[3]` (ascending powers of alpha) of the cubic
`det(F1 + alpha * F2) = 0`, exactly as expanded in
`SevenPointSolver::Solve`. -/
def cubicCoeffs (F1 F2 : Mat3) : Fin 4 → ℝ :=
  let a := F1 0 0
  let b := F1 0 1
  let c := F1 0 2
  let d := F1 1 0
  let e := F1 1 1
  let f := F1 1 2
  let g := F1 2 0
  let h := F1 2 1
  let i := F1 2 2
  let j := F2 0 0
  let k := F2 0 1
  let l := F2 0 2
  let m := F2 1 0
  let n := F2 1 1
  let o := F2 1 2
  let p := F2 2 0
  let q := F2 2 1
  let r := F2 2 2
  ![a*e*i + b*f*g + c*d*h - a*f*h - b*d*i - c*e*g,
    a*e*r + a*i*n + b*f*p + b*g*o + c*d*q + c*h*m + d*h*l + e*i*j + f*g*k -
      a*f*q - a*h*o - b*d*r - b*i*m - c*e*p - c*g*n - d*i*k - e*g*l - f*h*j,
    a*n*r + b*o*p + c*m*q + d*l*q + e*j*r + f*k*p + g*k*o + h*l*m + i*j*n -
      a*o*q - b*m*r - c*n*p - d*k*r - e*l*p - f*j*q - g*l*n - h*j*o - i*k*m,
    j*n*r + k*o*p + l*m*q - j*o*q - k*m*r - l*n*p]

namespace SevenPointSolver

/-- `SevenPointSolver::Solve(x1, x2, F)` on `n` correspondences. The
2-dimensional null-space extraction `Nullspace2` of the encoded epipolar
system (aliceVision/numeric, an SVD computation, not among the provided
sources) and the cubic root-finder `SolveCubicPolynomial`
(aliceVision/numeric/polynomial.hpp, also not provided) are modelled from the
spec as abstract parameters: `nullsp2` yields the two null-space basis
vectors `f1, f2` of the correspondence system, and `solveCubic` reports the
list of real roots of the cubic. One candidate `F1 + root * F2` is appended
per reported root. -/
def Solve (nullsp2 : (ℕ → Vec2) → (ℕ → Vec2) → ℕ → Vec9 × Vec9)
    (solveCubic : (Fin 4 → ℝ) → List ℝ)
    (x1 x2 : ℕ → Vec2) (n : ℕ) (F : List Mat3) : List Mat3 :=
  let f1 := (nullsp2 x1 x2 n).1
  let f2 := (nullsp2 x1 x2 n).2
  let F1 := reshapeRow3 f1
  let F2 := reshapeRow3 f2
  let roots := solveCubic (cubicCoeffs F1 F2)
  F ++ roots.map fun root => F1 + root • F2

end SevenPointSolver

/-- Claim C4: the seven-point solver appends exactly as many candidates as
the cubic root-finder reports real roots for `det(F1 + alpha * F2) = 0`, the
`k`-th appended candidate being `F1 + root_k * F2`; in particular zero
reported roots yield zero candidates and no error. -/
theorem SevenPointSolver_one_candidate_per_root
    (nullsp2 : (ℕ → Vec2) → (ℕ → Vec2) → ℕ → Vec9 × Vec9)
    (solveCubic : (Fin 4 → ℝ) → List ℝ)
    (x1 x2 : ℕ → Vec2) (n : ℕ) (F : List Mat3) :
    (SevenPointSolver.Solve nullsp2 solveCubic x1 x2 n F).length =
      F.length + (solveCubic (cubicCoeffs (reshapeRow3 (nullsp2 x1 x2 n).1)
        (reshapeRow3 (nullsp2 x1 x2 n).2))).length ∧
    (∀ kk : Fin (solveCubic (cubicCoeffs (reshapeRow3 (nullsp2 x1 x2 n).1)
        (reshapeRow3 (nullsp2 x1 x2 n).2))).length,
      (SevenPointSolver.Solve nullsp2 solveCubic x1 x2 n F).getD
          (F.length + kk.val) 0 =
        reshapeRow3 (nullsp2 x1 x2 n).1 +
          (solveCubic (cubicCoeffs (reshapeRow3 (nullsp2 x1 x2 n).1)
            (reshapeRow3 (nullsp2 x1 x2 n).2))).get kk •
            reshapeRow3 (nullsp2 x1 x2 n).2) ∧
    (solveCubic (cubicCoeffs (reshapeRow3 (nullsp2 x1 x2 n).1)
        (reshapeRow3 (nullsp2 x1 x2 n).2)) = [] →
      SevenPointSolver.Solve nullsp2 solveCubic x1 x2 n F = F) := by
  set F1 := reshapeRow3 (nullsp2 x1 x2 n).1 with hF1
  set F2 := reshapeRow3 (nullsp2 x1 x2 n).2 with hF2
  set roots := solveCubic (cubicCoeffs F1 F2) with hroots
  have hsolve : SevenPointSolver.Solve nullsp2 solveCubic x1 x2 n F =
      F ++ roots.map fun root => F1 + root • F2 := rfl
  refine ⟨?_, ?_, ?_⟩
  · rw [hsolve, List.length_append, List.length_map]
  · intro kk
    rw [hsolve]
    have hk : (roots.map fun root => F1 + root • F2).length = roots.length :=
      List.length_map _ _
    rw [List.getD_append_right _ _ _ _ (by omega)]
    have hidx : F.length + kk.val - F.length = kk.val := by omega
    rw [hidx]
    have hklt : kk.val < (roots.map fun root => F1 + root • F2).length := by
      omega
    rw [List.getD_eq_getElem _ _ hklt]
    simp only [List.getElem_map]
    rw [List.get_eq_getElem]
  · intro hempty
    rw [hsolve, hempty]
    simp

namespace EightPointSolver

/-- `EightPointSolver::Solve(x1, x2, Fs, weights)` on `n` correspondences.
The 1-dimensional null-space extraction `Nullspace` of the encoded
(optionally weighted) epipolar system and the SVD used by the rank-2
projection (both aliceVision/numeric, not among the provided sources) are
modelled from the spec as abstract parameters `nullsp` and `svdRank2`; the
latter stands for the decompose / zero-smallest-singular-value / reconstruct
step. The reshaped null-space solution is rank-2-projected only when
`n > 8`, and exactly one candidate is appended. -/
def Solve (nullsp : (ℕ → Vec2) → (ℕ → Vec2) → ℕ → Vec9)
    (svdRank2 : Mat3 → Mat3)
    (x1 x2 : ℕ → Vec2) (n : ℕ) (Fs : List Mat3) : List Mat3 :=
  let f := nullsp x1 x2 n
  let F := reshapeRow3 f
  let Fout := if 8 < n then svdRank2 F else F
  Fs ++ [Fout]

end EightPointSolver

/-- Claim C3: for every input of `n >= 8` correspondences the eight-point
solver appends exactly one candidate; the rank-2 enforcement is applied
exactly when `n > 8`, and for `n = 8` the appended matrix is the reshaped
unconstrained null-space vector itself. -/
theorem EightPointSolver_one_candidate
    (nullsp : (ℕ → Vec2) → (ℕ → Vec2) → ℕ → Vec9) (svdRank2 : Mat3 → Mat3)
    (x1 x2 : ℕ → Vec2) (n : ℕ) (Fs : List Mat3) (h : 8 ≤ n) :
    (EightPointSolver.Solve nullsp svdRank2 x1 x2 n Fs).length =
      Fs.length + 1 ∧
    (n = 8 → EightPointSolver.Solve nullsp svdRank2 x1 x2 n Fs =
      Fs ++ [reshapeRow3 (nullsp x1 x2 n)]) ∧
    (8 < n → EightPointSolver.Solve nullsp svdRank2 x1 x2 n Fs =
      Fs ++ [svdRank2 (reshapeRow3 (nullsp x1 x2 n))]) := by
  have hsolve : EightPointSolver.Solve nullsp svdRank2 x1 x2 n Fs =
      Fs ++ [if 8 < n then svdRank2 (reshapeRow3 (nullsp x1 x2 n))
             else reshapeRow3 (nullsp x1 x2 n)] := rfl
  refine ⟨?_, ?_, ?_⟩
  · rw [hsolve, List.length_append, List.length_singleton]
  · intro h8
    rw [hsolve, if_neg (by omega)]
  · intro h8
    rw [hsolve, if_pos h8]

/-- Witness for C3: the minimal case `n = 8` with trivial abstract
null-space and rank-2 projection functions. -/
theorem EightPointSolver_one_candidate_witness :
    (8 : ℕ) ≤ 8 ∧
    ((EightPointSolver.Solve (fun _ _ _ => (0 : Vec9)) id
        (fun _ => (0 : Vec2)) (fun _ => (0 : Vec2)) 8
        ([] : List Mat3)).length = ([] : List Mat3).length + 1 ∧
     ((8 : ℕ) = 8 → EightPointSolver.Solve (fun _ _ _ => (0 : Vec9)) id
        (fun _ => (0 : Vec2)) (fun _ => (0 : Vec2)) 8 ([] : List Mat3) =
        ([] : List Mat3) ++ [reshapeRow3 (0 : Vec9)]) ∧
     ((8 : ℕ) < 8 → EightPointSolver.Solve (fun _ _ _ => (0 : Vec9)) id
        (fun _ => (0 : Vec2)) (fun _ => (0 : Vec2)) 8 ([] : List Mat3) =
        ([] : List Mat3) ++ [id (reshapeRow3 (0 : Vec9))])) :=
  ⟨le_refl 8, EightPointSolver_one_candidate (fun _ _ _ => (0 : Vec9)) id
    (fun _ => (0 : Vec2)) (fun _ => (0 : Vec2)) 8 ([] : List Mat3)
    (le_refl 8)⟩

end AVSpec
